import Mathlib

/-!
# Verification of the queueing-party discrete-event simulator

Shallow embedding of the core of the repository (event scheduler,
shared-rate resource, queue/worker dispatch, pool manager) and proofs
about the embedded definitions.

Modelling conventions, used throughout:

* Rust `u64` / `usize` / `u8` / `u32` values are modelled as `Nat`.
  None of the claims exercises wrap-around of 64-bit arithmetic, so the
  `% 2^64` reduction is omitted (the quantities involved stay far below
  the bound on all inputs considered).
* Rust `f64` and `f32` computations are modelled as exact rational
  arithmetic (`ℚ`).  The float-to-integer cast `as u64` truncates
  toward zero and maps negative values to zero; on `ℚ` this is
  `Int.toNat ∘ Int.floor`.  Saturation above `2^64 - 1` is outside the
  ranges considered.
* A Rust `assert!` or `unwrap` failure (a panic) is modelled by an
  `Except PanicKind` result.
* `BinaryHeap` over the reversed comparison (so `peek`/`pop` yield the
  minimum key) is modelled as a plain list; `peek` reads the minimum of
  the stored keys.  `HashSet` and `VecDeque` are modelled as lists.
* One-shot closures (`Box<dyn FnOnce ...>`) are modelled by opaque
  numeric tags; where a closure must be invoked, its behaviour is
  passed in as an explicit function parameter.
* Random draws (`gen_range`, distribution sampling) are modelled as
  explicit input streams; the distributional properties of the external
  rand crates are out of scope.
-/

/-- Rust `as u64` conversion of an `f64`, on the exact-rational model of
`f64`: truncation toward zero, negative values mapped to zero. -/
def f64AsU64 (q : ℚ) : ℕ :=
  (⌊q⌋).toNat

/-- `BaseSimulation::TICKS_PER_SECOND` (simulation.rs line 52). -/
def ticksPerSecond : ℚ := 1000

/-- A kind of runtime panic (failed `assert!` or failed `unwrap`). -/
inductive PanicKind where
  /-- `update_resource_timer`: `assert!(last_updated <= current_timestamp)`. -/
  | lastUpdatedAfterNow
  /-- `update_resource_timer`: `assert!(resource_timer < peek.due_timer_time)`. -/
  | resourceTimerOvershoot
  /-- `pick_worker`: one of the two `found_self` assertions failed. -/
  | foundSelfAssert
  /-- `pick_worker`: `Rc::into_inner(...).unwrap()` failed. -/
  | intoInnerFailed
  /-- model artifact: a worker id with no registered worker (cannot occur
  in the Rust source, where a counted reference is held directly). -/
  | danglingWorker
  /-- model artifact: loop fuel exhausted (proved unreachable). -/
  | outOfFuel
  /-- `mk_token_restoring_handler`: `assert!(checkout_timestamp < timestamp)`. -/
  | restoreTooEarly
deriving DecidableEq, Repr

/-- Minimum of `key` over a list, as produced by `BinaryHeap::peek` on a
heap with reversed ordering (0 for the empty list, never used there). -/
def minKey (key : α → ℕ) : List α → ℕ
  | [] => 0
  | x :: xs => xs.foldl (fun m y => min m (key y)) (key x)

/-! ## Shared-rate resource (shared_rate_resource.rs) -/

/-- `SharedRateTenancy` (shared_rate_resource.rs lines 22-25).  The
`handler` closure is modelled by an opaque tag. -/
structure SharedRateTenancy where
  due_timer_time : ℕ
  handler : ℕ
deriving DecidableEq, Repr

/-- The key returned by `tenancies.peek()`: the smallest
`due_timer_time` in the heap. -/
def minDueTimerTime (l : List SharedRateTenancy) : ℕ :=
  minKey SharedRateTenancy.due_timer_time l

/-- `SharedRateResource` (shared_rate_resource.rs lines 47-58).  The
`id`, `status` and `rng` fields are not needed by any claim: the `rng`
is consumed only by tenancy-requirement sampling and the handler
shuffle, which are modelled as explicit parameters where relevant. -/
structure SharedRateResource where
  partitions : ℕ
  resource_timer : ℕ
  resource_timer_last_updated_real_time : ℕ
  utilization_counter : ℕ
  load_counter : ℕ
  wakeup_event_memo : List ℕ
  tenancies : List SharedRateTenancy
deriving DecidableEq, Repr

/-- `MAX_WAKEUP_EVENT_MEMO_LEN` (shared_rate_resource.rs line 61). -/
def maxWakeupEventMemoLen : ℕ := 8

/-- `MIN_RESOURCE_TIMER_RESET_VAL = (TICKS_PER_SECOND * 120.0) as u64`
(shared_rate_resource.rs line 62), at the base 1000 ticks per second. -/
def minResourceTimerResetVal : ℕ := f64AsU64 (ticksPerSecond * 120)

/-- `get_current_resource_timer_rate` (shared_rate_resource.rs lines
96-105): `min(1.0, partitions as f64 / tenancies.len() as f64)`. -/
def getCurrentResourceTimerRate (s : SharedRateResource) : Option ℚ :=
  if s.tenancies = [] then
    none
  else
    some (min 1 ((s.partitions : ℚ) / (s.tenancies.length : ℚ)))

/-- `get_next_wakeup_time` (shared_rate_resource.rs lines 107-117):
`((peek.due_timer_time - resource_timer) as f64 / rate) as u64
 + resource_timer_last_updated_real_time`.  The `u64` subtraction is
modelled by truncated `Nat` subtraction (the resource-timer invariant
keeps `resource_timer` below the minimum due time, so the subtraction
does not underflow on the states considered). -/
def getNextWakeupTime (s : SharedRateResource) : Option ℕ :=
  if s.tenancies = [] then
    none
  else
    some (f64AsU64
        (((minDueTimerTime s.tenancies - s.resource_timer : ℕ) : ℚ) /
          ((getCurrentResourceTimerRate s).getD 1))
      + s.resource_timer_last_updated_real_time)

/-- `update_resource_timer` (shared_rate_resource.rs lines 64-94).  The
two `assert!` statements are modelled as `Except` errors. -/
def updateResourceTimer (s : SharedRateResource) (current_timestamp : ℕ) :
    Except PanicKind SharedRateResource :=
  if ¬ s.resource_timer_last_updated_real_time ≤ current_timestamp then
    .error .lastUpdatedAfterNow
  else if s.tenancies = [] then
    -- do not reset before the timer had a chance to be observed by metrics
    let s1 :=
      if minResourceTimerResetVal ≤ s.resource_timer then
        { s with resource_timer := 0, utilization_counter := 0, load_counter := 0 }
      else s
    .ok { s1 with resource_timer_last_updated_real_time := current_timestamp }
  else if s.resource_timer_last_updated_real_time = current_timestamp then
    .ok s
  else
    let real_time_delta := current_timestamp - s.resource_timer_last_updated_real_time
    let increment : ℚ :=
      (real_time_delta : ℚ) * ((getCurrentResourceTimerRate s).getD 1)
    let timer' := s.resource_timer + f64AsU64 increment
    if timer' < minDueTimerTime s.tenancies then
      .ok { s with
        resource_timer := timer',
        utilization_counter := s.utilization_counter +
          min s.partitions s.tenancies.length * real_time_delta,
        load_counter := s.load_counter + s.tenancies.length * real_time_delta,
        resource_timer_last_updated_real_time := current_timestamp }
    else
      .error .resourceTimerOvershoot

/-- `LogNormal::from_mean_cv(mean, cv)` parameters, recorded
symbolically.  A coefficient of variation of 0 makes the distribution
deterministic. -/
structure LogNormalCV where
  mean : ℚ
  cv : ℚ
deriving DecidableEq, Repr

/-- Sampling a CV-0 lognormal distribution deterministically yields its
mean (the `exp (ln mean)` float round trip is exact on the rational
model). -/
def sampleCVZero (d : LogNormalCV) : ℚ := d.mean

/-- `ProposedEvent` (args_rets.rs lines 29-32): a delay distribution
plus a handler closure, the latter modelled by an opaque tag. -/
structure ProposedEventM where
  due_time : LogNormalCV
  handler : ℕ
deriving DecidableEq, Repr

/-- `maybe_generate_wakeup_event` (shared_rate_resource.rs lines
133-188), state part: `None` when the heap is empty; otherwise, if the
next wakeup time `t` is not in the memo, prepend `t` to the memo
(truncated to `MAX_WAKEUP_EVENT_MEMO_LEN - 1` first) and emit one
proposed event with distribution `from_mean_cv(t, 0)`; otherwise emit
nothing.  The emitted wakeup handler closure is modelled by tag 0. -/
def maybeGenerateWakeupEvent (s : SharedRateResource) :
    Option (List ProposedEventM × SharedRateResource) :=
  if s.tenancies = [] then
    none
  else
    let t := (getNextWakeupTime s).getD 0
    if t ∈ s.wakeup_event_memo then
      some ([], s)
    else
      some ([⟨⟨(t : ℚ), 0⟩, 0⟩],
        { s with wakeup_event_memo :=
            t :: s.wakeup_event_memo.take (maxWakeupEventMemoLen - 1) })

/-! ## Event scheduler (main_loop.rs) -/

/-- `ScheduledEvent` (main_loop.rs lines 12-15), handler as opaque tag. -/
structure ScheduledEvent where
  due_time : ℕ
  handler : ℕ
deriving DecidableEq, Repr

/-- The due-time computation of main_loop.rs lines 82-86: a proposed
event whose sampled delay is `sampled` is pushed with
`due_time = current_timestamp + max(1, sampled as u64)`. -/
def scheduleDueTime (current_timestamp : ℕ) (sampled : ℚ) : ℕ :=
  current_timestamp + max 1 (f64AsU64 sampled)

/-- The re-insertion loop of main_loop.rs lines 81-87: schedule each
proposed event at `scheduleDueTime`, drawing delays from the
`schedule_rng` sample stream `samples` (indexed by a running draw
counter, fed with the event distribution). -/
def insertProposed (samples : ℕ → LogNormalCV → ℚ) (t : ℕ) :
    List (LogNormalCV × ℕ) → ℕ → List ScheduledEvent × ℕ
  | [], ctr => ([], ctr)
  | (dist, h) :: rest, ctr =>
    let e : ScheduledEvent := ⟨scheduleDueTime t (samples ctr dist), h⟩
    let (es, ctr') := insertProposed samples t rest (ctr + 1)
    (e :: es, ctr')

/-- One iteration of the `main_loop` while-loop (main_loop.rs lines
50-87): pop the batch of events sharing the minimum due time, invoke
each handler with the batch time, collect the proposed events, sample
their delays and re-insert.  `invoke` gives the proposed events of each
handler tag (the tie-break shuffle only permutes the invocation order
of a batch and is absorbed into `invoke`); the returned number is the
batch timestamp handed to every handler of the batch. -/
def mainLoopStep (invoke : ℕ → ℕ → List (LogNormalCV × ℕ))
    (samples : ℕ → LogNormalCV → ℚ)
    (st : List ScheduledEvent × ℕ) : ℕ × (List ScheduledEvent × ℕ) :=
  let heap := st.1
  let t := minKey ScheduledEvent.due_time heap
  let batch := heap.filter (fun e => e.due_time = t)
  let rest := heap.filter (fun e => ¬ e.due_time = t)
  let proposed := batch.flatMap (fun e => invoke e.handler e.due_time)
  let ins := insertProposed samples t proposed st.2
  (t, (rest ++ ins.1, ins.2))

/-- The sequence of batch timestamps observed by handlers along a run
of `main_loop`, up to `fuel` iterations. -/
def mainLoopBatchTimes (invoke : ℕ → ℕ → List (LogNormalCV × ℕ))
    (samples : ℕ → LogNormalCV → ℚ) :
    ℕ → List ScheduledEvent × ℕ → List ℕ
  | 0, _ => []
  | fuel + 1, st =>
    if st.1 = [] then
      []
    else
      let r := mainLoopStep invoke samples st
      r.1 :: mainLoopBatchTimes invoke samples fuel r.2

/-! ## Queue / Worker / WorkerToken (queue.rs) -/

/-- `Status` (status.rs, not under src/).  Modelled from the spec:
the enumeration `\x7bRunning, ShuttingDown\x7d` held in a shared
mutable cell. -/
inductive Status where
  | Running
  | ShuttingDown
deriving DecidableEq, Repr

/-- `Worker` (queue.rs lines 208-216).  `subscribed_queues` holds
indices into the world's queue table (the `Rc<RefCell<Queue>>`
back-references).  The `rng`, the metric labels and the extension slot
play no role in the modelled claims; the shared status cell is read but
never written by the modelled operations, so it is stored by value. -/
structure WorkerRec where
  id : ℕ
  subscribed_queues : List ℕ
  status : Status
deriving DecidableEq, Repr

/-- `Queue` (queue.rs lines 115-121).  `listening_workers` holds worker
ids (a `HashSet<Rc<Worker>>` keyed by worker id); `deque` holds opaque
tags of the queued handler closures.  The queue `rng` is modelled by
the explicit choice stream fed to `pick_worker`. -/
structure QueueState where
  name : String
  listening_workers : List ℕ
  deque : List ℕ
deriving DecidableEq, Repr

/-- The world a queue operation runs in: the queue table, the worker
registry (the data behind the worker references), and the metrics
touched by the modelled operations (`worker_tokens_checked_out` as a
total count, `up` as a per-worker-id gauge record). -/
structure QueueWorld where
  queues : List QueueState
  workers : List WorkerRec
  worker_tokens_checked_out : ℕ
  up_gauge : List (ℕ × ℕ)
deriving DecidableEq, Repr

def emptyQueueState : QueueState := ⟨"", [], []⟩

/-- Dereference a queue index. -/
def getQueue (w : QueueWorld) (qi : ℕ) : QueueState :=
  w.queues.getD qi emptyQueueState

/-- Write back one queue. -/
def setQueue (w : QueueWorld) (qi : ℕ) (q : QueueState) : QueueWorld :=
  { w with queues := w.queues.set qi q }

/-- `simulation.get_up_metric().get_or_create(labels).set(v)`, recorded
per worker id. -/
def setUpGauge (w : QueueWorld) (wid v : ℕ) : QueueWorld :=
  { w with up_gauge := (wid, v) :: w.up_gauge }

def getUpGauge (w : QueueWorld) (wid : ℕ) : Option ℕ :=
  w.up_gauge.lookup wid

/-- Dereference a worker id (following the `Rc<Worker>`). -/
def lookupWorker (w : QueueWorld) (wid : ℕ) : Option WorkerRec :=
  w.workers.find? (fun wk => wk.id == wid)

/-- `queue.listening_workers.remove(&worker)`. -/
def eraseListening (w : QueueWorld) (qj wid : ℕ) : QueueWorld :=
  setQueue w qj
    { getQueue w qj with
      listening_workers := (getQueue w qj).listening_workers.erase wid }

/-- The removal loop of `pick_worker` (queue.rs lines 136-149): for
each queue in `subscribed_queues`, remove the chosen worker from its
listening set; the `try_borrow_mut` of the picking queue itself fails
(it is already mutably borrowed), so that entry is skipped. -/
def removeFromSubscribed (qi wid : ℕ) : QueueWorld → List ℕ → QueueWorld
  | w, [] => w
  | w, qj :: rest =>
    removeFromSubscribed qi wid
      (if qj = qi then w else eraseListening w qj wid) rest

/-- The listening worker picked by `gen_range(0..len)` returning `idx`
modulo the set size (`iter().nth(idx)` on the set, with the hash-set
iteration order modelled by the list order). -/
def chosenListeningId (w : QueueWorld) (qi idx : ℕ) : ℕ :=
  (getQueue w qi).listening_workers.getD
    (idx % (getQueue w qi).listening_workers.length) 0

/-- Outcome of one iteration of the `pick_worker` loop. -/
inductive PickStep where
  | noneLeft
  | picked (wk : WorkerRec) (w : QueueWorld)
  | shutDown (w : QueueWorld)
deriving DecidableEq, Repr

/-- One iteration of the `pick_worker` loop body (queue.rs lines
125-158): pick a listening worker at random, remove it from this
queue's listening set and from every other subscribed queue's set; the
`found_self` assertions demand that exactly one inner `borrow_mut`
fails, which in the single-threaded source happens exactly for the
occurrences of the picking queue itself; `Rc::into_inner` demands that
no listening set still holds the worker; a non-`Running` worker is shut
down (`up` gauge set to 0) and the loop retries. -/
def pickWorkerStep (w : QueueWorld) (qi idx : ℕ) :
    Except PanicKind PickStep :=
  if (getQueue w qi).listening_workers = [] then
    .ok .noneLeft
  else
    let wid := chosenListeningId w qi idx
    let w1 := eraseListening w qi wid
    match lookupWorker w wid with
    | none => .error .danglingWorker
    | some wk =>
      let w2 := removeFromSubscribed qi wid w1 wk.subscribed_queues
      if wk.subscribed_queues.count qi ≠ 1 then
        .error .foundSelfAssert
      else if w2.queues.any (fun q => q.listening_workers.contains wid) then
        .error .intoInnerFailed
      else if wk.status ≠ .Running then
        .ok (.shutDown (setUpGauge w2 wid 0))
      else
        .ok (.picked wk w2)

/-- The `pick_worker` while-loop (queue.rs lines 124-162), with fuel
bounding the iteration count (each iteration removes the chosen worker
from the listening set, so the initial set size bounds the number of
iterations; see the fuel-sufficiency proofs below).  `choices` is the
stream of `gen_range` draws of the queue rng, indexed by iteration. -/
def pickWorkerGo (qi : ℕ) (choices : ℕ → ℕ) :
    ℕ → ℕ → QueueWorld → Except PanicKind (Option WorkerRec × QueueWorld)
  | 0, _, _ => .error .outOfFuel
  | fuel + 1, k, w =>
    match pickWorkerStep w qi (choices k) with
    | .error e => .error e
    | .ok .noneLeft => .ok (none, w)
    | .ok (.picked wk w2) => .ok (some wk, w2)
    | .ok (.shutDown w2) => pickWorkerGo qi choices fuel (k + 1) w2

/-- `Queue::pick_worker` (queue.rs lines 124-162). -/
def pickWorker (w : QueueWorld) (qi : ℕ) (choices : ℕ → ℕ) :
    Except PanicKind (Option WorkerRec × QueueWorld) :=
  pickWorkerGo qi choices ((getQueue w qi).listening_workers.length + 1) 0 w

/-- `WorkerToken` (queue.rs lines 311-316).  The metric-label vector is
carried by the checked-out-counter model instead. -/
structure WorkerTokenM where
  worker : WorkerRec
  checkout_timestamp : ℕ
  originating_queue_name : String
deriving DecidableEq, Repr

/-- `queue.deque.push_back(handler)`. -/
def pushBackDeque (w : QueueWorld) (qi hid : ℕ) : QueueWorld :=
  setQueue w qi
    { getQueue w qi with deque := (getQueue w qi).deque ++ [hid] }

/-- `Queue::enqueued_handler_inner` (queue.rs lines 164-194).  `hid` is
the opaque tag of the `inner_handler` closure and `inner` its behaviour
when invoked with a timestamp and a freshly built token; `choices`
feeds `pick_worker`.  When the deque is non-empty, or no listening
worker is available, the handler is pushed to the back of the deque and
no proposed events are returned; otherwise a token is built for the
picked worker, the checked-out counter is bumped and the inner handler
is invoked. -/
def enqueuedHandlerInner (w : QueueWorld) (qi : ℕ)
    (inner : ℕ → WorkerTokenM → List ProposedEventM)
    (hid timestamp : ℕ) (choices : ℕ → ℕ) :
    Except PanicKind (QueueWorld × List ProposedEventM) :=
  if (getQueue w qi).deque = [] then
    match pickWorker w qi choices with
    | .error e => .error e
    | .ok (some wk, w1) =>
      let token : WorkerTokenM :=
        { worker := wk, checkout_timestamp := timestamp,
          originating_queue_name := (getQueue w1 qi).name }
      .ok ({ w1 with
              worker_tokens_checked_out := w1.worker_tokens_checked_out + 1 },
           inner timestamp token)
    | .ok (none, w1) => .ok (pushBackDeque w1 qi hid, [])
  else
    .ok (pushBackDeque w qi hid, [])

/-- The token-restoration loop of `mk_token_restoring_handler`
(queue.rs lines 330-342): for each token, assert that it was checked
out strictly before the current tick, observe the checkout duration in
seconds on the `worker_token_duration` histogram, and let the worker
listen again.  Returns the follow-on proposed events together with the
recorded histogram observations; `listenFn` gives the behaviour of
`Worker::listen`. -/
def restoreTokensGo (timestamp : ℕ)
    (listenFn : WorkerRec → ℕ → List ProposedEventM) :
    List WorkerTokenM → Except PanicKind (List ProposedEventM × List ℚ)
  | [] => .ok ([], [])
  | tok :: rest =>
    if tok.checkout_timestamp < timestamp then
      let obs : ℚ :=
        ((timestamp - tok.checkout_timestamp : ℕ) : ℚ) / ticksPerSecond
      match restoreTokensGo timestamp listenFn rest with
      | .error e => .error e
      | .ok (pes, obss) =>
        .ok (listenFn tok.worker timestamp ++ pes, obs :: obss)
    else
      .error .restoreTooEarly

/-- `WorkerToken::mk_token_restoring_handler` (queue.rs lines 318-350),
applied to the result `(proposed_events, tokens_to_restore)` of the
inner handler at `timestamp`. -/
def mkTokenRestoringHandler (proposed_events : List ProposedEventM)
    (tokens_to_restore : List WorkerTokenM) (timestamp : ℕ)
    (listenFn : WorkerRec → ℕ → List ProposedEventM) :
    Except PanicKind (List ProposedEventM × List ℚ) :=
  match restoreTokensGo timestamp listenFn tokens_to_restore with
  | .error e => .error e
  | .ok (followons, obss) => .ok (proposed_events ++ followons, obss)

/-! ## Pool manager (pool_manager.rs) -/

/-- `PoolManager` (pool_manager.rs lines 4-8).  The boxed shutdown
callables are modelled by distinct numeric ids handed out by the
constructor (`next_id` playing the constructor closure's state);
`constructed_count` counts constructor invocations and `shutdown_log`
records the ids of invoked shutdown callables, in invocation order. -/
structure PoolManager where
  instances : List ℕ
  next_id : ℕ
  constructed_count : ℕ
  shutdown_log : List ℕ
deriving DecidableEq, Repr

/-- The grow loop of `set_desired_instances_absolute` (pool_manager.rs
lines 24-26): invoke the constructor and push the resulting shutdown
callable to the back, `k` times. -/
def pmGrow : PoolManager → ℕ → PoolManager
  | pm, 0 => pm
  | pm, k + 1 =>
    pmGrow
      { pm with
        instances := pm.instances ++ [pm.next_id],
        next_id := pm.next_id + 1,
        constructed_count := pm.constructed_count + 1 }
      k

/-- The shrink loop of `set_desired_instances_absolute` (pool_manager.rs
lines 28-30): pop the front shutdown callable and invoke it, `k`
times. -/
def pmShrink : PoolManager → ℕ → PoolManager
  | pm, 0 => pm
  | pm, k + 1 =>
    match pm.instances with
    | [] => pm
    | x :: rest =>
      pmShrink { pm with instances := rest, shutdown_log := pm.shutdown_log ++ [x] } k

/-- `set_desired_instances_absolute` (pool_manager.rs lines 23-31): the
two while-loops, with their trip counts computed up front (truncated
subtraction makes the inactive loop run zero times).  The
`u32::try_from(len).unwrap()` conversions are exact on `Nat`. -/
def setDesiredInstancesAbsolute (pm : PoolManager) (count : ℕ) : PoolManager :=
  let grown := pmGrow pm (count - pm.instances.length)
  pmShrink grown (grown.instances.length - count)

/-! ## RNG forking in main_loop (main_loop.rs, simulation.rs) -/

/-- `BaseSimulation` (simulation.rs lines 26-31) restricted to the
fields relevant to RNG forking; the `Xoshiro256StarStar` state is an
opaque value (the generator itself is the external rand_xoshiro crate,
out of scope). -/
structure BaseSimulationM where
  id : ℕ
  rng : ℕ
deriving DecidableEq, Repr

/-- main_loop.rs lines 42-43: `simevent_rng` and `schedule_rng` are both
`simulation.borrow_rng_mut().clone()`.  `Clone` copies the generator
state; neither the clone nor the borrow steps the simulation's own
generator. -/
def mainLoopForkRngs (sim : BaseSimulationM) : ℕ × ℕ × BaseSimulationM :=
  (sim.rng, sim.rng, sim)

/-- The first `k` outputs of a generator started in state `st`, for an
arbitrary deterministic step function `g` (state to output and next
state). -/
def rngStream (g : ℕ → ℕ × ℕ) : ℕ → ℕ → List ℕ
  | _, 0 => []
  | st, k + 1 => (g st).1 :: rngStream g (g st).2 k

/-- Well-formedness of one listening worker id of queue `qi`: the id
dereferences to a worker record carrying that id, the picking queue
occurs exactly once in its `subscribed_queues` (the source keeps one
back-reference per subscription), and the worker is listening only on
queues it subscribes to (the listening sets hold the only strong
references to it, matching the `Rc` ownership of the source). -/
def WorkerListedWF (w : QueueWorld) (qi wid : ℕ) : Prop :=
  (lookupWorker w wid).isSome = true ∧
  ∀ wk ∈ (lookupWorker w wid).toList,
    wk.id = wid ∧ wk.subscribed_queues.count qi = 1 ∧
    ∀ qj, qj < w.queues.length →
      wid ∈ (getQueue w qj).listening_workers → qj ∈ wk.subscribed_queues

/-- Well-formedness of queue `qi` in a world: the index is valid, the
listening sets are duplicate-free (they model `HashSet`s), and every
listening worker id of `qi` is well formed. -/
def ListeningWF (w : QueueWorld) (qi : ℕ) : Prop :=
  qi < w.queues.length ∧
  (∀ qj, qj < w.queues.length → (getQueue w qj).listening_workers.Nodup) ∧
  ∀ wid ∈ (getQueue w qi).listening_workers, WorkerListedWF w qi wid

/-! ## Concrete states used by counterexample and witness theorems -/

/-- One tenancy needing 1 more timer tick, one partition, timer fully
caught up at real time 0. -/
def srrTight : SharedRateResource :=
  { partitions := 1, resource_timer := 0,
    resource_timer_last_updated_real_time := 0,
    utilization_counter := 0, load_counter := 0,
    wakeup_event_memo := [], tenancies := [⟨1, 0⟩] }

/-- Two partitions shared by three tenants (rate 2/3), nearest due
timer time 3: the wakeup-offset quotient 3 / (2/3) = 4.5 is not an
integer. -/
def srrSlow : SharedRateResource :=
  { partitions := 2, resource_timer := 0,
    resource_timer_last_updated_real_time := 0,
    utilization_counter := 0, load_counter := 0,
    wakeup_event_memo := [],
    tenancies := [⟨3, 0⟩, ⟨10, 1⟩, ⟨10, 2⟩] }

/-- A resource whose timer was last updated at real time 100 by the
handler currently running, with one tenancy due at timer time 50. -/
def srrWakeupBug : SharedRateResource :=
  { partitions := 1, resource_timer := 0,
    resource_timer_last_updated_real_time := 100,
    utilization_counter := 0, load_counter := 0,
    wakeup_event_memo := [], tenancies := [⟨50, 0⟩] }

/-- One tenancy needing 5 more timer ticks at rate 1. -/
def srrSteady : SharedRateResource :=
  { partitions := 1, resource_timer := 0,
    resource_timer_last_updated_real_time := 0,
    utilization_counter := 0, load_counter := 0,
    wakeup_event_memo := [], tenancies := [⟨5, 0⟩] }

/-- A constant rng-draw stream. -/
def choiceZero : ℕ → ℕ := fun _ => 0

/-- Handlers proposing no follow-on events. -/
def invokeNil : ℕ → ℕ → List (LogNormalCV × ℕ) := fun _ _ => []

/-- A constant delay-sample stream. -/
def sampleConst : ℕ → LogNormalCV → ℚ := fun _ _ => (5 : ℚ) / 2

/-- An inner queue handler proposing no events. -/
def innerNil : ℕ → WorkerTokenM → List ProposedEventM := fun _ _ => []

/-- A listen behaviour proposing no events. -/
def listenNil : WorkerRec → ℕ → List ProposedEventM := fun _ _ => []

/-- One queue, one running listening worker subscribed to it. -/
def worldOne : QueueWorld :=
  { queues := [{ name := "q", listening_workers := [7], deque := [] }],
    workers := [{ id := 7, subscribed_queues := [0], status := .Running }],
    worker_tokens_checked_out := 0, up_gauge := [] }

/-- One queue with two listening workers: worker 3 is shutting down,
worker 8 is running. -/
def worldSkip : QueueWorld :=
  { queues := [{ name := "q", listening_workers := [3, 8], deque := [] }],
    workers := [{ id := 3, subscribed_queues := [0], status := .ShuttingDown },
                { id := 8, subscribed_queues := [0], status := .Running }],
    worker_tokens_checked_out := 0, up_gauge := [] }

/-- One queue with a non-empty deque and a listening worker. -/
def worldBusy : QueueWorld :=
  { queues := [{ name := "q", listening_workers := [7], deque := [4] }],
    workers := [{ id := 7, subscribed_queues := [0], status := .Running }],
    worker_tokens_checked_out := 0, up_gauge := [] }

/-! ## Helper lemmas -/

theorem foldl_min_le_init (key : α → ℕ) (l : List α) (a : ℕ) :
    l.foldl (fun m y => min m (key y)) a ≤ a := by
  induction l generalizing a with
  | nil => exact le_rfl
  | cons x xs ih =>
    exact le_trans (ih (min a (key x))) (min_le_left _ _)

theorem foldl_min_le_mem (key : α → ℕ) {l : List α} {x : α} (a : ℕ)
    (h : x ∈ l) : l.foldl (fun m y => min m (key y)) a ≤ key x := by
  induction l generalizing a with
  | nil => cases h
  | cons z zs ih =>
    rcases List.mem_cons.mp h with rfl | hz
    · exact le_trans (foldl_min_le_init key zs _) (min_le_right _ _)
    · exact ih _ hz

theorem le_foldl_min (key : α → ℕ) {l : List α} {a b : ℕ}
    (ha : b ≤ a) (h : ∀ x ∈ l, b ≤ key x) :
    b ≤ l.foldl (fun m y => min m (key y)) a := by
  induction l generalizing a with
  | nil => exact ha
  | cons z zs ih =>
    exact ih (le_min ha (h z (List.mem_cons_self _ _)))
      (fun x hx => h x (List.mem_cons_of_mem _ hx))

theorem minKey_le (key : α → ℕ) {l : List α} {x : α} (h : x ∈ l) :
    minKey key l ≤ key x := by
  cases l with
  | nil => cases h
  | cons z zs =>
    rcases List.mem_cons.mp h with rfl | hz
    · exact foldl_min_le_init key zs _
    · exact foldl_min_le_mem key _ hz

theorem le_minKey (key : α → ℕ) {l : List α} {b : ℕ}
    (h : ∀ x ∈ l, b ≤ key x) : l = [] ∨ b ≤ minKey key l := by
  cases l with
  | nil => exact Or.inl rfl
  | cons z zs =>
    refine Or.inr (le_foldl_min key (h z (List.mem_cons_self _ _))
      (fun x hx => h x (List.mem_cons_of_mem _ hx)))

theorem getCurrentResourceTimerRate_of_ne_nil (s : SharedRateResource)
    (hne : s.tenancies ≠ []) :
    (getCurrentResourceTimerRate s).getD 1 =
      min 1 ((s.partitions : ℚ) / (s.tenancies.length : ℚ)) := by
  simp [getCurrentResourceTimerRate, hne]

theorem getNextWakeupTime_of_ne_nil (s : SharedRateResource)
    (hne : s.tenancies ≠ []) :
    getNextWakeupTime s =
      some (f64AsU64
          (((minDueTimerTime s.tenancies - s.resource_timer : ℕ) : ℚ) /
            min 1 ((s.partitions : ℚ) / (s.tenancies.length : ℚ)))
        + s.resource_timer_last_updated_real_time) := by
  simp [getNextWakeupTime, getCurrentResourceTimerRate_of_ne_nil s hne, hne]

theorem srrRate_pos (s : SharedRateResource) (hne : s.tenancies ≠ [])
    (hN : 1 ≤ s.partitions) :
    0 < min 1 ((s.partitions : ℚ) / (s.tenancies.length : ℚ)) := by
  have hK : 0 < s.tenancies.length := List.length_pos.mpr hne
  refine lt_min one_pos (div_pos ?_ ?_)
  · exact_mod_cast Nat.lt_of_lt_of_le Nat.zero_lt_one hN
  · exact_mod_cast hK

/-! ## C2: the resource-timer invariant -/

/-- C2 (amended): for every shared-rate resource with a non-empty
tenancy heap, at least one partition and the resource-timer invariant
holding, and every timestamp `now` with
`last_updated ≤ now < get_next_wakeup_time()`, `update_resource_timer
(now)` succeeds (neither assertion fails) and leaves `resource_timer`
strictly below the smallest `due_timer_time` in the heap, because the
float-to-integer conversion of the increment rounds toward zero.  (The
claim as stated, for every `now ≥ last_updated`, is refuted by
`updateResourceTimer_overshoot_cx`.) -/
theorem updateResourceTimer_keeps_timer_below_due
    (s : SharedRateResource) (now : ℕ)
    (hne : s.tenancies ≠ [])
    (hN : 1 ≤ s.partitions)
    (hinv : s.resource_timer < minDueTimerTime s.tenancies)
    (hlo : s.resource_timer_last_updated_real_time ≤ now)
    (hhi : now < (getNextWakeupTime s).getD 0) :
    ∃ s', updateResourceTimer s now = .ok s' ∧
      s'.tenancies = s.tenancies ∧
      s'.resource_timer < minDueTimerTime s'.tenancies := by
  by_cases hL : s.resource_timer_last_updated_real_time = now
  · refine ⟨s, ?_, rfl, hinv⟩
    unfold updateResourceTimer
    rw [if_neg (not_not_intro hlo), if_neg hne, if_pos hL]
  · set r : ℚ := min 1 ((s.partitions : ℚ) / (s.tenancies.length : ℚ)) with hr
    have hrpos : 0 < r := srrRate_pos s hne hN
    set M := minDueTimerTime s.tenancies with hM
    set T := s.resource_timer with hT
    set L := s.resource_timer_last_updated_real_time with hLd
    set D : ℕ := M - T with hD
    have hD1 : 1 ≤ D := by omega
    have hwake : (getNextWakeupTime s).getD 0 = f64AsU64 ((D : ℚ) / r) + L := by
      rw [getNextWakeupTime_of_ne_nil s hne]
      rfl
    rw [hwake] at hhi
    set Δ := now - L with hΔd
    have hΔ : Δ < f64AsU64 ((D : ℚ) / r) := by omega
    have h1 : (Δ : ℤ) < ⌊(D : ℚ) / r⌋ := Int.lt_toNat.mp hΔ
    have h2 : ((Δ : ℚ) + 1) ≤ (D : ℚ) / r := by
      have h2a : ((Δ : ℤ) + 1 : ℤ) ≤ ⌊(D : ℚ) / r⌋ := by omega
      have h2b := Int.le_floor.mp h2a
      push_cast at h2b
      linarith
    have h3 : (Δ : ℚ) * r < D := by
      have h3a : ((Δ : ℚ) + 1) * r ≤ (D : ℚ) := (le_div_iff₀ hrpos).mp h2
      nlinarith
    have h4 : f64AsU64 ((Δ : ℚ) * r) < D := by
      have hfl : ⌊(Δ : ℚ) * r⌋ < (D : ℤ) := Int.floor_lt.mpr (by exact_mod_cast h3)
      unfold f64AsU64
      omega
    refine ⟨{ s with
        resource_timer := T + f64AsU64 ((Δ : ℚ) * r),
        utilization_counter := s.utilization_counter +
          min s.partitions s.tenancies.length * Δ,
        load_counter := s.load_counter + s.tenancies.length * Δ,
        resource_timer_last_updated_real_time := now }, ?_, rfl, ?_⟩
    · unfold updateResourceTimer
      rw [if_neg (not_not_intro hlo), if_neg hne, if_neg hL]
      dsimp only
      rw [getCurrentResourceTimerRate_of_ne_nil s hne, ← hr, ← hM, ← hT, ← hLd, ← hΔd,
        if_pos (by omega : T + f64AsU64 ((Δ : ℚ) * r) < M)]
    · dsimp only
      omega

/-- C2 counterexample: `srrTight` has a non-empty heap and
`last_updated = 0 ≤ 1`, yet at `now = 1` (the scheduled wakeup tick)
the advance lands exactly on the due value and the assertion
`resource_timer < peek.due_timer_time` inside `update_resource_timer`
fails: the claim quantified over every `now ≥ last_updated` is false. -/
theorem updateResourceTimer_overshoot_cx :
    srrTight.tenancies ≠ [] ∧
    srrTight.resource_timer_last_updated_real_time ≤ 1 ∧
    updateResourceTimer srrTight 1 = .error .resourceTimerOvershoot := by
  refine ⟨by decide, by decide, ?_⟩
  unfold updateResourceTimer
  norm_num [srrTight, getCurrentResourceTimerRate, minDueTimerTime, minKey,
    f64AsU64, min_def]

/-- Witness for `updateResourceTimer_keeps_timer_below_due` at
`srrSteady`, `now = 3`. -/
theorem updateResourceTimer_keeps_timer_below_due_witness :
    ∃ s', updateResourceTimer srrSteady 3 = .ok s' ∧
      s'.tenancies = srrSteady.tenancies ∧
      s'.resource_timer < minDueTimerTime s'.tenancies := by
  refine updateResourceTimer_keeps_timer_below_due srrSteady 3
    (by decide) (by decide) (by decide) (by decide) ?_
  rw [getNextWakeupTime_of_ne_nil srrSteady (by decide)]
  norm_num [srrSteady, minDueTimerTime, minKey, f64AsU64, min_def]

/-! ## C3: the predicted wakeup time -/

/-- C3 (amended): for every shared-rate resource with a non-empty
tenancy heap, at least one partition and the invariant
`resource_timer < top.due_timer_time`, `get_next_wakeup_time` returns
`last_updated_real_time` plus the truncation toward zero (the floor) of
`(top.due_timer_time - resource_timer) / rate` — not the ceiling; the
real tick offsets `d` at which the advance rule (floor of elapsed real
time times rate) has reached the next due value are exactly those with
`d ≥ ceil((top - timer) / rate)`, so the code prediction never exceeds
the true tick but undershoots it whenever the quotient is not an
integer (see `getNextWakeupTime_not_ceil_cx`). -/
theorem getNextWakeupTime_floor_spec
    (s : SharedRateResource)
    (hne : s.tenancies ≠ [])
    (hN : 1 ≤ s.partitions)
    (hinv : s.resource_timer < minDueTimerTime s.tenancies) :
    getNextWakeupTime s =
      some (s.resource_timer_last_updated_real_time +
        (⌊((minDueTimerTime s.tenancies - s.resource_timer : ℕ) : ℚ) /
            min 1 ((s.partitions : ℚ) / (s.tenancies.length : ℚ))⌋).toNat)
    ∧ (∀ d : ℕ,
        minDueTimerTime s.tenancies ≤ s.resource_timer +
            f64AsU64 ((d : ℚ) *
              min 1 ((s.partitions : ℚ) / (s.tenancies.length : ℚ)))
          ↔ ⌈((minDueTimerTime s.tenancies - s.resource_timer : ℕ) : ℚ) /
              min 1 ((s.partitions : ℚ) / (s.tenancies.length : ℚ))⌉ ≤ (d : ℤ))
    ∧ ⌊((minDueTimerTime s.tenancies - s.resource_timer : ℕ) : ℚ) /
          min 1 ((s.partitions : ℚ) / (s.tenancies.length : ℚ))⌋ ≤
        ⌈((minDueTimerTime s.tenancies - s.resource_timer : ℕ) : ℚ) /
          min 1 ((s.partitions : ℚ) / (s.tenancies.length : ℚ))⌉ := by
  set r : ℚ := min 1 ((s.partitions : ℚ) / (s.tenancies.length : ℚ)) with hr
  have hrpos : 0 < r := srrRate_pos s hne hN
  set M := minDueTimerTime s.tenancies with hM
  set T := s.resource_timer with hT
  set D : ℕ := M - T with hD
  refine ⟨?_, ?_, Int.floor_le_ceil _⟩
  · rw [getNextWakeupTime_of_ne_nil s hne]
    simp [f64AsU64, Nat.add_comm]
  · intro d
    have hx : (0 : ℚ) ≤ (d : ℚ) * r := mul_nonneg (by positivity) hrpos.le
    have h0 : (0 : ℤ) ≤ ⌊(d : ℚ) * r⌋ := Int.floor_nonneg.mpr hx
    have e1 : M ≤ T + f64AsU64 ((d : ℚ) * r) ↔ D ≤ (⌊(d : ℚ) * r⌋).toNat := by
      unfold f64AsU64
      omega
    have e2 : D ≤ (⌊(d : ℚ) * r⌋).toNat ↔ (D : ℤ) ≤ ⌊(d : ℚ) * r⌋ :=
      Int.le_toNat h0
    have e3 : (D : ℤ) ≤ ⌊(d : ℚ) * r⌋ ↔ (D : ℚ) ≤ (d : ℚ) * r := by
      rw [Int.le_floor]
      norm_cast
    have e4 : (D : ℚ) ≤ (d : ℚ) * r ↔ (D : ℚ) / r ≤ (d : ℚ) :=
      (div_le_iff₀ hrpos).symm
    have e5 : (D : ℚ) / r ≤ (d : ℚ) ↔ ⌈(D : ℚ) / r⌉ ≤ (d : ℤ) := by
      rw [Int.ceil_le]
      norm_cast
    exact e1.trans (e2.trans (e3.trans (e4.trans e5)))

/-- C3 counterexample: for `srrSlow` (two partitions, three tenants,
difference 3, rate 2/3) the code returns wakeup time 4 while
`last + ceil((top - timer) / rate)` is 5, and at the predicted tick 4
the advance rule has only earned 2 of the 3 needed timer ticks — the
prediction is not the ceiling and is not the tick at which the timer
first reaches the due value. -/
theorem getNextWakeupTime_not_ceil_cx :
    getNextWakeupTime srrSlow = some 4 ∧
    srrSlow.resource_timer_last_updated_real_time +
      (⌈((minDueTimerTime srrSlow.tenancies - srrSlow.resource_timer : ℕ) : ℚ) /
          min 1 ((srrSlow.partitions : ℚ) / (srrSlow.tenancies.length : ℚ))⌉).toNat
      = 5 ∧
    (4 : ℕ) ≠ 5 ∧
    srrSlow.resource_timer +
      f64AsU64 ((4 : ℚ) *
        min 1 ((srrSlow.partitions : ℚ) / (srrSlow.tenancies.length : ℚ))) = 2 ∧
    ¬ minDueTimerTime srrSlow.tenancies ≤ 2 := by
  have hmin : min (1 : ℚ) ((srrSlow.partitions : ℚ) / (srrSlow.tenancies.length : ℚ))
      = 2 / 3 := by
    rw [min_def]
    norm_num [srrSlow]
  refine ⟨?_, ?_, by decide, ?_, by decide⟩
  · rw [getNextWakeupTime_of_ne_nil srrSlow (by decide)]
    rw [hmin]
    norm_num [srrSlow, minDueTimerTime, minKey, f64AsU64]
    rfl
  · rw [hmin]
    have hceil : (⌈((3 : ℕ) : ℚ) / (2 / 3)⌉ : ℤ) = 5 := by
      rw [Int.ceil_eq_iff]
      norm_num
    norm_num [srrSlow, minDueTimerTime, minKey] at hceil ⊢
    rw [hceil]
    rfl
  · rw [hmin]
    norm_num [srrSlow, f64AsU64]
    rfl

/-- Witness for `getNextWakeupTime_floor_spec` at `srrSlow`, with the
reach-equivalence instantiated at tick offset 5. -/
theorem getNextWakeupTime_floor_spec_witness :
    (getNextWakeupTime srrSlow =
      some (srrSlow.resource_timer_last_updated_real_time +
        (⌊((minDueTimerTime srrSlow.tenancies - srrSlow.resource_timer : ℕ) : ℚ) /
            min 1 ((srrSlow.partitions : ℚ) / (srrSlow.tenancies.length : ℚ))⌋).toNat))
    ∧ (minDueTimerTime srrSlow.tenancies ≤ srrSlow.resource_timer +
          f64AsU64 ((5 : ℕ) *
            min 1 ((srrSlow.partitions : ℚ) / (srrSlow.tenancies.length : ℚ)))
        ↔ ⌈((minDueTimerTime srrSlow.tenancies - srrSlow.resource_timer : ℕ) : ℚ) /
            min 1 ((srrSlow.partitions : ℚ) / (srrSlow.tenancies.length : ℚ))⌉ ≤
          ((5 : ℕ) : ℤ)) :=
  ⟨(getNextWakeupTime_floor_spec srrSlow (by decide) (by decide) (by decide)).1,
   (getNextWakeupTime_floor_spec srrSlow (by decide) (by decide) (by decide)).2.1 5⟩

/-! ## C1: wakeup-event generation and its scheduling -/

/-- C1 (code-bug exhibit): for `srrWakeupBug` — non-empty heap, next
wakeup time `t = 150` not in the memo — `maybe_generate_wakeup_event`
does return exactly one proposed event, deterministic (CV 0) with mean
`t`, and prepends `t` to the memo; but the scheduler of main_loop adds
the sampled value to the proposing batch time (here 100, the time at
which the resource timer was last updated by the proposing handler), so
the wakeup handler is invoked at timestamp `100 + max(1, 150) = 250`,
not at the absolute real time `t = 150` required by the claim (and by
the handler body, which pops tenancies only when
`get_next_wakeup_time() == timestamp`). -/
theorem wakeup_event_misscheduled_cx :
    getNextWakeupTime srrWakeupBug = some 150 ∧
    maybeGenerateWakeupEvent srrWakeupBug =
      some ([⟨⟨150, 0⟩, 0⟩], { srrWakeupBug with wakeup_event_memo := [150] }) ∧
    scheduleDueTime 100 (sampleCVZero ⟨150, 0⟩) = 250 ∧
    (250 : ℕ) ≠ 150 := by
  have h150 : getNextWakeupTime srrWakeupBug = some 150 := by
    rw [getNextWakeupTime_of_ne_nil srrWakeupBug (by decide)]
    norm_num [srrWakeupBug, minDueTimerTime, minKey, f64AsU64, min_def]
    rfl
  refine ⟨h150, ?_, ?_, by decide⟩
  · rw [maybeGenerateWakeupEvent, if_neg (by decide : ¬ srrWakeupBug.tenancies = [])]
    rw [h150]
    norm_num [srrWakeupBug, maxWakeupEventMemoLen]
  · norm_num [scheduleDueTime, sampleCVZero, f64AsU64]
    rfl

/-! ## C4: scheduling of proposed events and timestamp monotonicity -/

theorem scheduleDueTime_ge (c : ℕ) (d : ℚ) : c + 1 ≤ scheduleDueTime c d :=
  Nat.add_le_add_left (le_max_left _ _) c

theorem mainLoopStep_fst (invoke : ℕ → ℕ → List (LogNormalCV × ℕ))
    (samples : ℕ → LogNormalCV → ℚ) (st : List ScheduledEvent × ℕ) :
    (mainLoopStep invoke samples st).1 = minKey ScheduledEvent.due_time st.1 :=
  rfl

theorem insertProposed_mem (samples : ℕ → LogNormalCV → ℚ) (t : ℕ) :
    ∀ (l : List (LogNormalCV × ℕ)) (ctr : ℕ),
      ∀ e ∈ (insertProposed samples t l ctr).1,
        ∃ k dist h, e = ScheduledEvent.mk (scheduleDueTime t (samples k dist)) h := by
  intro l
  induction l with
  | nil => intro ctr e he; simp [insertProposed] at he
  | cons p rest ih =>
    intro ctr e he
    rw [insertProposed] at he
    rcases List.mem_cons.mp he with rfl | hrest
    · exact ⟨ctr, p.1, p.2, rfl⟩
    · exact ih (ctr + 1) e hrest

theorem mainLoopStep_heap_ge (invoke : ℕ → ℕ → List (LogNormalCV × ℕ))
    (samples : ℕ → LogNormalCV → ℚ) (st : List ScheduledEvent × ℕ) :
    ∀ e ∈ (mainLoopStep invoke samples st).2.1,
      minKey ScheduledEvent.due_time st.1 ≤ e.due_time := by
  intro e he
  rw [mainLoopStep] at he
  rcases List.mem_append.mp he with hrest | hins
  · exact minKey_le _ (List.mem_of_mem_filter hrest)
  · obtain ⟨k, dist, h, rfl⟩ := insertProposed_mem samples _ _ _ e hins
    exact le_trans (Nat.le_succ _) (scheduleDueTime_ge _ _)

theorem mainLoopBatchTimes_chain (invoke : ℕ → ℕ → List (LogNormalCV × ℕ))
    (samples : ℕ → LogNormalCV → ℚ) :
    ∀ (fuel : ℕ) (st : List ScheduledEvent × ℕ),
      List.Chain' (· ≤ ·) (mainLoopBatchTimes invoke samples fuel st) := by
  intro fuel
  induction fuel with
  | zero => intro st; simp [mainLoopBatchTimes]
  | succ n ih =>
    intro st
    by_cases h : st.1 = []
    · simp [mainLoopBatchTimes, h]
    · rw [mainLoopBatchTimes, if_neg h, List.chain'_cons']
      refine ⟨?_, ih _⟩
      intro y hy
      cases n with
      | zero => simp [mainLoopBatchTimes] at hy
      | succ m =>
        by_cases h2 : (mainLoopStep invoke samples st).2.1 = []
        · rw [mainLoopBatchTimes, if_pos h2] at hy
          simp at hy
        · rw [mainLoopBatchTimes, if_neg h2, List.head?_cons, Option.mem_some_iff] at hy
          subst hy
          rw [mainLoopStep_fst]
          rcases le_minKey ScheduledEvent.due_time
              (fun e he => mainLoopStep_heap_ge invoke samples st e he) with h3 | h3
          · exact absurd h3 h2
          · exact h3

/-- C4: a proposed event collected at batch time `t` with sampled delay
`d` is inserted with `due_time = t + max(1, floor d)` (so every
scheduled due time is at least `t + 1`), every event in the heap after
a step is an old event or one inserted by this rule, and along any run
the batch timestamps handed to handlers are non-decreasing: no handler
observes a timestamp lower than an earlier invocation's. -/
theorem scheduler_due_time_rule
    (invoke : ℕ → ℕ → List (LogNormalCV × ℕ))
    (samples : ℕ → LogNormalCV → ℚ)
    (heap : List ScheduledEvent) (ctr : ℕ) :
    (∀ (c : ℕ) (d : ℚ), 0 ≤ d →
      ((scheduleDueTime c d : ℕ) : ℤ) = (c : ℤ) + max 1 ⌊d⌋)
    ∧ (∀ (c : ℕ) (d : ℚ), c + 1 ≤ scheduleDueTime c d)
    ∧ (∀ e ∈ (mainLoopStep invoke samples (heap, ctr)).2.1,
        e ∈ heap ∨ ∃ k dist h, e =
          ScheduledEvent.mk
            (scheduleDueTime (minKey ScheduledEvent.due_time heap) (samples k dist)) h)
    ∧ (∀ e ∈ (mainLoopStep invoke samples (heap, ctr)).2.1,
        minKey ScheduledEvent.due_time heap ≤ e.due_time)
    ∧ ∀ fuel, List.Chain' (· ≤ ·)
        (mainLoopBatchTimes invoke samples fuel (heap, ctr)) := by
  refine ⟨?_, scheduleDueTime_ge, ?_, mainLoopStep_heap_ge invoke samples (heap, ctr),
    fun fuel => mainLoopBatchTimes_chain invoke samples fuel (heap, ctr)⟩
  · intro c d hd
    unfold scheduleDueTime f64AsU64
    push_cast [Int.toNat_of_nonneg (Int.floor_nonneg.mpr hd)]
    rfl
  · intro e he
    rw [mainLoopStep] at he
    rcases List.mem_append.mp he with hrest | hins
    · exact Or.inl (List.mem_of_mem_filter hrest)
    · exact Or.inr (insertProposed_mem samples _ _ _ e hins)

/-- Witness for `scheduler_due_time_rule`: the insertion formula and
the minimum-one-tick bound at batch time 3 and sampled delay 5/2. -/
theorem scheduler_due_time_rule_witness :
    ((scheduleDueTime 3 ((5 : ℚ) / 2) : ℕ) : ℤ) = (3 : ℤ) + max 1 ⌊(5 : ℚ) / 2⌋ ∧
    3 + 1 ≤ scheduleDueTime 3 ((5 : ℚ) / 2) :=
  ⟨(scheduler_due_time_rule invokeNil sampleConst [⟨5, 0⟩] 0).1 3 ((5 : ℚ) / 2)
      (by norm_num),
   (scheduler_due_time_rule invokeNil sampleConst [⟨5, 0⟩] 0).2.1 3 ((5 : ℚ) / 2)⟩

/-! ## List-access helper lemmas -/

theorem getD_of_length_le (l : List α) (d : α) :
    ∀ i, l.length ≤ i → l.getD i d = d := by
  induction l with
  | nil => intro i _; cases i <;> rfl
  | cons x xs ih =>
    intro i hi
    cases i with
    | zero => simp at hi
    | succ j => exact ih j (by simpa using hi)

theorem getD_set_self (l : List α) (a d : α) :
    ∀ i, i < l.length → (l.set i a).getD i d = a := by
  induction l with
  | nil => intro i hi; simp at hi
  | cons x xs ih =>
    intro i hi
    cases i with
    | zero => rfl
    | succ j => exact ih j (by simpa using hi)

theorem getD_set_other (l : List α) (a d : α) :
    ∀ i j, j ≠ i → (l.set i a).getD j d = l.getD j d := by
  induction l with
  | nil => intro i j _; cases i <;> rfl
  | cons x xs ih =>
    intro i j hj
    cases i with
    | zero => cases j with
      | zero => exact absurd rfl hj
      | succ j2 => rfl
    | succ i2 => cases j with
      | zero => rfl
      | succ j2 => exact ih i2 j2 (by omega)

theorem getD_mem (l : List α) (d : α) :
    ∀ i, i < l.length → l.getD i d ∈ l := by
  induction l with
  | nil => intro i hi; simp at hi
  | cons x xs ih =>
    intro i hi
    cases i with
    | zero => exact List.mem_cons_self _ _
    | succ j => exact List.mem_cons_of_mem _ (ih j (by simpa using hi))

theorem getQueue_of_length_le (w : QueueWorld) (qi : ℕ)
    (h : w.queues.length ≤ qi) : getQueue w qi = emptyQueueState :=
  getD_of_length_le w.queues emptyQueueState qi h

theorem getQueue_setQueue_self (w : QueueWorld) (qi : ℕ) (q : QueueState)
    (h : qi < w.queues.length) : getQueue (setQueue w qi q) qi = q :=
  getD_set_self w.queues q emptyQueueState qi h

theorem getQueue_setQueue_other (w : QueueWorld) (qi qj : ℕ) (q : QueueState)
    (h : qj ≠ qi) : getQueue (setQueue w qi q) qj = getQueue w qj :=
  getD_set_other w.queues q emptyQueueState qi qj h

theorem length_setQueue (w : QueueWorld) (qi : ℕ) (q : QueueState) :
    (setQueue w qi q).queues.length = w.queues.length :=
  List.length_set w.queues qi q

/-! ## C5: FIFO fairness of enqueue on a busy queue -/

/-- C5: when the deque of the target queue is non-empty,
`enqueued_handler_inner` appends the incoming inner handler to the back
of the deque, returns no proposed events, picks or checks out no worker
(the listening sets of all queues are untouched, the worker registry is
untouched and the checked-out counter is not incremented): a listening
worker is only sought when the deque is empty. -/
theorem enqueued_handler_fifo_when_nonempty
    (w : QueueWorld) (qi : ℕ) (inner : ℕ → WorkerTokenM → List ProposedEventM)
    (hid timestamp : ℕ) (choices : ℕ → ℕ)
    (hne : (getQueue w qi).deque ≠ []) :
    enqueuedHandlerInner w qi inner hid timestamp choices =
      .ok (pushBackDeque w qi hid, []) ∧
    (getQueue (pushBackDeque w qi hid) qi).deque =
      (getQueue w qi).deque ++ [hid] ∧
    (∀ qj, (getQueue (pushBackDeque w qi hid) qj).listening_workers =
      (getQueue w qj).listening_workers) ∧
    (pushBackDeque w qi hid).worker_tokens_checked_out =
      w.worker_tokens_checked_out ∧
    (pushBackDeque w qi hid).workers = w.workers := by
  have hqi : qi < w.queues.length := by
    by_contra hq
    push_neg at hq
    rw [getQueue_of_length_le w qi hq] at hne
    exact hne rfl
  refine ⟨?_, ?_, ?_, rfl, rfl⟩
  · rw [enqueuedHandlerInner, if_neg hne]
  · rw [pushBackDeque, getQueue_setQueue_self w qi _ hqi]
  · intro qj
    by_cases hj : qj = qi
    · subst hj
      rw [pushBackDeque, getQueue_setQueue_self w qj _ hqi]
    · rw [pushBackDeque, getQueue_setQueue_other w qi qj _ hj]

/-- Witness for `enqueued_handler_fifo_when_nonempty` at `worldBusy`. -/
theorem enqueued_handler_fifo_when_nonempty_witness :
    enqueuedHandlerInner worldBusy 0 innerNil 9 11 choiceZero =
      .ok (pushBackDeque worldBusy 0 9, []) ∧
    (getQueue (pushBackDeque worldBusy 0 9) 0).deque =
      (getQueue worldBusy 0).deque ++ [9] ∧
    (∀ qj, (getQueue (pushBackDeque worldBusy 0 9) qj).listening_workers =
      (getQueue worldBusy qj).listening_workers) ∧
    (pushBackDeque worldBusy 0 9).worker_tokens_checked_out =
      worldBusy.worker_tokens_checked_out ∧
    (pushBackDeque worldBusy 0 9).workers = worldBusy.workers :=
  enqueued_handler_fifo_when_nonempty worldBusy 0 innerNil 9 11 choiceZero
    (by decide)

/-! ## C6: token restoration asserts forward progress -/

theorem restoreTokensGo_ok (t : ℕ) (listenFn : WorkerRec → ℕ → List ProposedEventM) :
    ∀ tokens : List WorkerTokenM,
      (∀ tok ∈ tokens, tok.checkout_timestamp < t) →
      ∃ pes, restoreTokensGo t listenFn tokens =
        .ok (pes, tokens.map (fun tok =>
          ((t - tok.checkout_timestamp : ℕ) : ℚ) / ticksPerSecond)) := by
  intro tokens
  induction tokens with
  | nil => intro _; exact ⟨[], rfl⟩
  | cons tok rest ih =>
    intro h
    have htok := h tok (List.mem_cons_self _ _)
    obtain ⟨pes, hpes⟩ := ih (fun x hx => h x (List.mem_cons_of_mem _ hx))
    refine ⟨listenFn tok.worker t ++ pes, ?_⟩
    rw [restoreTokensGo, if_pos htok, hpes]
    rfl

theorem restoreTokensGo_err (t : ℕ) (listenFn : WorkerRec → ℕ → List ProposedEventM) :
    ∀ tokens : List WorkerTokenM,
      (∃ tok ∈ tokens, t ≤ tok.checkout_timestamp) →
      restoreTokensGo t listenFn tokens = .error .restoreTooEarly := by
  intro tokens
  induction tokens with
  | nil => rintro ⟨tok, h, _⟩; cases h
  | cons tok rest ih =>
    rintro ⟨x, hx, hxt⟩
    rcases List.mem_cons.mp hx with rfl | hx2
    · rw [restoreTokensGo, if_neg (by omega)]
    · by_cases htok : tok.checkout_timestamp < t
      · rw [restoreTokensGo, if_pos htok, ih ⟨x, hx2, hxt⟩]
      · rw [restoreTokensGo, if_neg htok]

/-- C6: the token-restoring wrapper at timestamp `t` succeeds exactly
when every restored token was checked out strictly before `t` (whenever
some token has `checkout_timestamp ≥ t` the wrapper aborts with the
forward-progress assertion), and on success it observes
`(t - checkout_timestamp) / TICKS_PER_SECOND` on the
`worker_token_duration` histogram for every restored token, in order. -/
theorem token_restore_asserts_forward_progress
    (pes : List ProposedEventM) (tokens : List WorkerTokenM) (timestamp : ℕ)
    (listenFn : WorkerRec → ℕ → List ProposedEventM) :
    ((∃ r, mkTokenRestoringHandler pes tokens timestamp listenFn = .ok r) ↔
      ∀ tok ∈ tokens, tok.checkout_timestamp < timestamp)
    ∧ ((∀ tok ∈ tokens, tok.checkout_timestamp < timestamp) →
        ∃ followons, mkTokenRestoringHandler pes tokens timestamp listenFn =
          .ok (pes ++ followons, tokens.map (fun tok =>
            ((timestamp - tok.checkout_timestamp : ℕ) : ℚ) / ticksPerSecond)))
    ∧ ((∃ tok ∈ tokens, timestamp ≤ tok.checkout_timestamp) →
        mkTokenRestoringHandler pes tokens timestamp listenFn =
          .error .restoreTooEarly) := by
  have hok : (∀ tok ∈ tokens, tok.checkout_timestamp < timestamp) →
      ∃ followons, mkTokenRestoringHandler pes tokens timestamp listenFn =
        .ok (pes ++ followons, tokens.map (fun tok =>
          ((timestamp - tok.checkout_timestamp : ℕ) : ℚ) / ticksPerSecond)) := by
    intro h
    obtain ⟨fpes, hf⟩ := restoreTokensGo_ok timestamp listenFn tokens h
    exact ⟨fpes, by rw [mkTokenRestoringHandler, hf]⟩
  have herr : (∃ tok ∈ tokens, timestamp ≤ tok.checkout_timestamp) →
      mkTokenRestoringHandler pes tokens timestamp listenFn =
        .error .restoreTooEarly := by
    intro h
    rw [mkTokenRestoringHandler, restoreTokensGo_err timestamp listenFn tokens h]
  refine ⟨⟨?_, ?_⟩, hok, herr⟩
  · rintro ⟨r, hr⟩
    by_contra hall
    push_neg at hall
    obtain ⟨tok, htok, hge⟩ := hall
    rw [herr ⟨tok, htok, hge⟩] at hr
    cases hr
  · intro h
    obtain ⟨followons, hf⟩ := hok h
    exact ⟨_, hf⟩

/-- Witness for `token_restore_asserts_forward_progress`: a token
checked out at tick 2 restores fine at tick 5; a token checked out at
tick 5 aborts at tick 5. -/
theorem token_restore_asserts_forward_progress_witness :
    (∃ r, mkTokenRestoringHandler [] [⟨⟨7, [0], .Running⟩, 2, "q"⟩] 5 listenNil =
      .ok r) ∧
    mkTokenRestoringHandler [] [⟨⟨7, [0], .Running⟩, 5, "q"⟩] 5 listenNil =
      .error .restoreTooEarly :=
  ⟨(token_restore_asserts_forward_progress [] [⟨⟨7, [0], .Running⟩, 2, "q"⟩] 5
      listenNil).1.mpr (by decide),
   (token_restore_asserts_forward_progress [] [⟨⟨7, [0], .Running⟩, 5, "q"⟩] 5
      listenNil).2.2 ⟨⟨⟨7, [0], .Running⟩, 5, "q"⟩, by decide, by decide⟩⟩

/-! ## C8: pool manager set_desired_instances_absolute -/

theorem pmGrow_spec : ∀ (k : ℕ) (pm : PoolManager),
    pmGrow pm k =
      { instances := pm.instances ++ List.range' pm.next_id k,
        next_id := pm.next_id + k,
        constructed_count := pm.constructed_count + k,
        shutdown_log := pm.shutdown_log } := by
  intro k
  induction k with
  | zero => intro pm; simp [pmGrow]
  | succ n ih =>
    intro pm
    rw [pmGrow, ih]
    simp only [List.range'_succ, PoolManager.mk.injEq]
    exact ⟨by simp, by omega, by omega, trivial⟩

theorem pmShrink_spec : ∀ (k : ℕ) (pm : PoolManager), k ≤ pm.instances.length →
    pmShrink pm k =
      { instances := pm.instances.drop k,
        next_id := pm.next_id,
        constructed_count := pm.constructed_count,
        shutdown_log := pm.shutdown_log ++ pm.instances.take k } := by
  intro k
  induction k with
  | zero => intro pm _; simp [pmShrink]
  | succ n ih =>
    intro pm h
    cases hl : pm.instances with
    | nil => rw [hl] at h; simp at h
    | cons x rest =>
      rw [pmShrink, hl]
      dsimp only
      rw [ih { pm with instances := rest, shutdown_log := pm.shutdown_log ++ [x] }
        (by rw [hl] at h; simp at h; show n ≤ rest.length; omega)]
      simp [hl, List.append_assoc]

/-- C8: `set_desired_instances_absolute(n)` leaves exactly `n` live
instances; growth invokes the constructor `n - |instances|` times,
pushing each fresh shutdown callable to the back as constructed, and
invokes no shutdown callable; shrinking invokes the front (oldest)
shutdown callables in FIFO order and no constructor; an immediately
repeated call with the same `n` is a no-op on the entire state (so it
invokes neither the constructor nor any shutdown callable). -/
theorem pool_set_absolute_spec (pm : PoolManager) (n : ℕ) :
    (setDesiredInstancesAbsolute pm n).instances.length = n
    ∧ (setDesiredInstancesAbsolute pm n).instances =
        (pm.instances ++ List.range' pm.next_id (n - pm.instances.length)).drop
          (pm.instances.length - n)
    ∧ (setDesiredInstancesAbsolute pm n).constructed_count =
        pm.constructed_count + (n - pm.instances.length)
    ∧ (setDesiredInstancesAbsolute pm n).shutdown_log =
        pm.shutdown_log ++ pm.instances.take (pm.instances.length - n)
    ∧ setDesiredInstancesAbsolute (setDesiredInstancesAbsolute pm n) n =
        setDesiredInstancesAbsolute pm n := by
  have hgrow := pmGrow_spec (n - pm.instances.length) pm
  have hlen : (pmGrow pm (n - pm.instances.length)).instances.length =
      pm.instances.length + (n - pm.instances.length) := by
    rw [hgrow]; simp
  have hshr := pmShrink_spec
    ((pmGrow pm (n - pm.instances.length)).instances.length - n)
    (pmGrow pm (n - pm.instances.length)) (Nat.sub_le _ _)
  have hmain : setDesiredInstancesAbsolute pm n =
      { instances := (pm.instances ++
          List.range' pm.next_id (n - pm.instances.length)).drop
            (pm.instances.length - n),
        next_id := pm.next_id + (n - pm.instances.length),
        constructed_count := pm.constructed_count + (n - pm.instances.length),
        shutdown_log := pm.shutdown_log ++
          pm.instances.take (pm.instances.length - n) } := by
    rw [setDesiredInstancesAbsolute, hshr, hgrow]
    simp only [PoolManager.mk.injEq]
    have hc : (pmGrow pm (n - pm.instances.length)).instances.length - n =
        pm.instances.length - n := by omega
    rw [hgrow] at hc
    refine ⟨by rw [hc], trivial, trivial, ?_⟩
    have htake : (pm.instances ++
        List.range' pm.next_id (n - pm.instances.length)).take
          (pm.instances.length - n) =
        pm.instances.take (pm.instances.length - n) := by
      by_cases hle : pm.instances.length ≤ n
      · simp [Nat.sub_eq_zero_of_le hle]
      · rw [List.take_append_of_le_length (by omega)]
    rw [hc, htake]
  have h1 : (setDesiredInstancesAbsolute pm n).instances.length = n := by
    rw [hmain]
    simp only []
    rw [List.length_drop, List.length_append, List.length_range']
    omega
  refine ⟨h1, by rw [hmain], by rw [hmain], by rw [hmain], ?_⟩
  rw [setDesiredInstancesAbsolute, h1, Nat.sub_self]
  show pmShrink (setDesiredInstancesAbsolute pm n)
    ((setDesiredInstancesAbsolute pm n).instances.length - n) = _
  rw [h1, Nat.sub_self]
  rfl

/-! ## C9: RNG forking in main_loop -/

/-- C9: both the tie-break rng and the delay-sampling rng of main_loop
are clones of the simulation rng's current state: they start equal,
they produce identical output streams under any deterministic generator
step function when drawn independently, and taking the clones leaves
the simulation (in particular its rng state) unchanged, so any
component seeded from the simulation rng afterwards starts from that
same unadvanced state. -/
theorem main_loop_rng_forking (sim : BaseSimulationM) :
    (mainLoopForkRngs sim).1 = (mainLoopForkRngs sim).2.1
    ∧ (mainLoopForkRngs sim).2.2 = sim
    ∧ ∀ (g : ℕ → ℕ × ℕ) (k : ℕ),
        rngStream g (mainLoopForkRngs sim).1 k =
          rngStream g (mainLoopForkRngs sim).2.1 k :=
  ⟨rfl, rfl, fun _ _ => rfl⟩

/-! ## pick_worker structural lemmas -/

theorem getQueue_eraseListening_self (w : QueueWorld) (qj wid : ℕ)
    (h : qj < w.queues.length) :
    getQueue (eraseListening w qj wid) qj =
      { getQueue w qj with
        listening_workers := (getQueue w qj).listening_workers.erase wid } :=
  getQueue_setQueue_self w qj _ h

theorem getQueue_eraseListening_other (w : QueueWorld) (qj qk wid : ℕ)
    (h : qk ≠ qj) :
    getQueue (eraseListening w qj wid) qk = getQueue w qk :=
  getQueue_setQueue_other w qj qk _ h

theorem eraseListening_of_length_le (w : QueueWorld) (qj wid : ℕ)
    (h : w.queues.length ≤ qj) : eraseListening w qj wid = w := by
  cases w
  simp only [eraseListening, setQueue]
  congr 1
  exact List.set_eq_of_length_le h

theorem mem_getQueue_eraseListening (w : QueueWorld) (qj qk wid x : ℕ)
    (hx : x ∈ (getQueue (eraseListening w qj wid) qk).listening_workers) :
    x ∈ (getQueue w qk).listening_workers := by
  by_cases hk : qk = qj
  · subst hk
    by_cases hlen : qk < w.queues.length
    · rw [getQueue_eraseListening_self w qk wid hlen] at hx
      exact List.mem_of_mem_erase hx
    · rw [eraseListening_of_length_le w qk wid (by omega)] at hx
      exact hx
  · rw [getQueue_eraseListening_other w qj qk wid hk] at hx
    exact hx

theorem nodup_getQueue_eraseListening (w : QueueWorld) (qj qk wid : ℕ)
    (h : (getQueue w qk).listening_workers.Nodup) :
    (getQueue (eraseListening w qj wid) qk).listening_workers.Nodup := by
  by_cases hk : qk = qj
  · subst hk
    by_cases hlen : qk < w.queues.length
    · rw [getQueue_eraseListening_self w qk wid hlen]
      exact h.erase wid
    · rw [eraseListening_of_length_le w qk wid (by omega)]
      exact h
  · rw [getQueue_eraseListening_other w qj qk wid hk]
    exact h

theorem removeFromSubscribed_workers (qi wid : ℕ) :
    ∀ (subs : List ℕ) (w : QueueWorld),
      (removeFromSubscribed qi wid w subs).workers = w.workers := by
  intro subs
  induction subs with
  | nil => intro w; rfl
  | cons qj rest ih =>
    intro w
    rw [removeFromSubscribed, ih]
    by_cases hj : qj = qi <;> simp [hj, eraseListening, setQueue]

theorem removeFromSubscribed_up_gauge (qi wid : ℕ) :
    ∀ (subs : List ℕ) (w : QueueWorld),
      (removeFromSubscribed qi wid w subs).up_gauge = w.up_gauge := by
  intro subs
  induction subs with
  | nil => intro w; rfl
  | cons qj rest ih =>
    intro w
    rw [removeFromSubscribed, ih]
    by_cases hj : qj = qi <;> simp [hj, eraseListening, setQueue]

theorem removeFromSubscribed_checked_out (qi wid : ℕ) :
    ∀ (subs : List ℕ) (w : QueueWorld),
      (removeFromSubscribed qi wid w subs).worker_tokens_checked_out =
        w.worker_tokens_checked_out := by
  intro subs
  induction subs with
  | nil => intro w; rfl
  | cons qj rest ih =>
    intro w
    rw [removeFromSubscribed, ih]
    by_cases hj : qj = qi <;> simp [hj, eraseListening, setQueue]

theorem removeFromSubscribed_length (qi wid : ℕ) :
    ∀ (subs : List ℕ) (w : QueueWorld),
      (removeFromSubscribed qi wid w subs).queues.length = w.queues.length := by
  intro subs
  induction subs with
  | nil => intro w; rfl
  | cons qj rest ih =>
    intro w
    rw [removeFromSubscribed, ih]
    by_cases hj : qj = qi
    · simp [hj]
    · simp [hj, eraseListening, length_setQueue]

theorem mem_removeFromSubscribed (qi wid : ℕ) :
    ∀ (subs : List ℕ) (w : QueueWorld) (qk x : ℕ),
      x ∈ (getQueue (removeFromSubscribed qi wid w subs) qk).listening_workers →
      x ∈ (getQueue w qk).listening_workers := by
  intro subs
  induction subs with
  | nil => intro w qk x hx; exact hx
  | cons qj rest ih =>
    intro w qk x hx
    rw [removeFromSubscribed] at hx
    by_cases hj : qj = qi
    · rw [if_pos hj] at hx
      exact ih w qk x hx
    · rw [if_neg hj] at hx
      exact mem_getQueue_eraseListening w qj qk wid x (ih _ qk x hx)

theorem nodup_removeFromSubscribed (qi wid : ℕ) :
    ∀ (subs : List ℕ) (w : QueueWorld) (qk : ℕ),
      (getQueue w qk).listening_workers.Nodup →
      (getQueue (removeFromSubscribed qi wid w subs) qk).listening_workers.Nodup := by
  intro subs
  induction subs with
  | nil => intro w qk h; exact h
  | cons qj rest ih =>
    intro w qk h
    rw [removeFromSubscribed]
    by_cases hj : qj = qi
    · rw [if_pos hj]
      exact ih w qk h
    · rw [if_neg hj]
      exact ih _ qk (nodup_getQueue_eraseListening w qj qk wid h)

theorem getQueue_removeFromSubscribed_of_not_mem (qi wid : ℕ) :
    ∀ (subs : List ℕ) (w : QueueWorld) (qk : ℕ), qk ∉ subs →
      getQueue (removeFromSubscribed qi wid w subs) qk = getQueue w qk := by
  intro subs
  induction subs with
  | nil => intro w qk _; rfl
  | cons qj rest ih =>
    intro w qk hk
    rw [removeFromSubscribed]
    have hk1 : qk ≠ qj := fun h => hk (h ▸ List.mem_cons_self _ _)
    have hk2 : qk ∉ rest := fun h => hk (List.mem_cons_of_mem _ h)
    by_cases hj : qj = qi
    · rw [if_pos hj, ih w qk hk2]
    · rw [if_neg hj, ih _ qk hk2, getQueue_eraseListening_other w qj qk wid hk1]

theorem getQueue_removeFromSubscribed_self (qi wid : ℕ) :
    ∀ (subs : List ℕ) (w : QueueWorld),
      getQueue (removeFromSubscribed qi wid w subs) qi = getQueue w qi := by
  intro subs
  induction subs with
  | nil => intro w; rfl
  | cons qj rest ih =>
    intro w
    rw [removeFromSubscribed]
    by_cases hj : qj = qi
    · rw [if_pos hj, ih w]
    · rw [if_neg hj, ih _, getQueue_eraseListening_other w qj qi wid (Ne.symm hj)]

theorem not_mem_removeFromSubscribed_of_mem (qi wid : ℕ) :
    ∀ (subs : List ℕ) (w : QueueWorld) (qj : ℕ), qj ∈ subs → qj ≠ qi →
      (getQueue w qj).listening_workers.Nodup →
      wid ∉ (getQueue (removeFromSubscribed qi wid w subs) qj).listening_workers := by
  intro subs
  induction subs with
  | nil => intro w qj h; cases h
  | cons q0 rest ih =>
    intro w qj hmem hne hnd
    rw [removeFromSubscribed]
    rcases List.mem_cons.mp hmem with rfl | hrest
    · rw [if_neg hne]
      intro hx
      have hx2 := mem_removeFromSubscribed qi wid rest _ qj wid hx
      by_cases hlen : qj < w.queues.length
      · rw [getQueue_eraseListening_self w qj wid hlen] at hx2
        exact hnd.not_mem_erase hx2
      · rw [eraseListening_of_length_le w qj wid (by omega),
          getQueue_of_length_le w qj (by omega)] at hx2
        cases hx2
    · by_cases hj : q0 = qi
      · rw [if_pos hj]
        exact ih w qj hrest hne hnd
      · rw [if_neg hj]
        exact ih _ qj hrest hne (nodup_getQueue_eraseListening w q0 qj wid hnd)

theorem getD_eq_get (l : List α) (d : α) :
    ∀ (i : ℕ) (h : i < l.length), l.getD i d = l.get ⟨i, h⟩ := by
  induction l with
  | nil => intro i hi; simp at hi
  | cons x xs ih =>
    intro i hi
    cases i with
    | zero => rfl
    | succ j => exact ih j (by simpa using hi)

theorem mem_queues_getQueue (w : QueueWorld) (q : QueueState)
    (h : q ∈ w.queues) : ∃ qk, qk < w.queues.length ∧ getQueue w qk = q := by
  obtain ⟨⟨i, hi⟩, hq⟩ := List.mem_iff_get.mp h
  exact ⟨i, hi, by rw [getQueue, getD_eq_get w.queues emptyQueueState i hi, hq]⟩

theorem length_eraseListening (w : QueueWorld) (qj wid : ℕ) :
    (eraseListening w qj wid).queues.length = w.queues.length :=
  length_setQueue w qj _

theorem pickWorkerStep_noneLeft (w : QueueWorld) (qi idx : ℕ)
    (h : (getQueue w qi).listening_workers = []) :
    pickWorkerStep w qi idx = .ok .noneLeft := by
  rw [pickWorkerStep, if_pos h]

theorem pickWorkerStep_spec (w : QueueWorld) (qi idx : ℕ)
    (hwf : ListeningWF w qi)
    (hne : (getQueue w qi).listening_workers ≠ []) :
    ∃ wk w2,
      lookupWorker w (chosenListeningId w qi idx) = some wk ∧
      wk.id = chosenListeningId w qi idx ∧
      wk.id ∈ (getQueue w qi).listening_workers ∧
      ((wk.status = .Running ∧ pickWorkerStep w qi idx = .ok (.picked wk w2)) ∨
       (wk.status ≠ .Running ∧ pickWorkerStep w qi idx =
          .ok (.shutDown (setUpGauge w2 wk.id 0)))) ∧
      w2.workers = w.workers ∧
      w2.up_gauge = w.up_gauge ∧
      w2.queues.length = w.queues.length ∧
      (∀ qk x, x ∈ (getQueue w2 qk).listening_workers →
        x ∈ (getQueue w qk).listening_workers) ∧
      (∀ qk, wk.id ∉ (getQueue w2 qk).listening_workers) ∧
      (getQueue w2 qi).listening_workers =
        (getQueue w qi).listening_workers.erase wk.id ∧
      (∀ qk, qk < w.queues.length →
        (getQueue w2 qk).listening_workers.Nodup) := by
  have hqi : qi < w.queues.length := hwf.1
  have hlpos : 0 < (getQueue w qi).listening_workers.length :=
    List.length_pos.mpr hne
  have hmemwid : chosenListeningId w qi idx ∈ (getQueue w qi).listening_workers := by
    rw [chosenListeningId]
    exact getD_mem _ 0 _ (Nat.mod_lt _ hlpos)
  obtain ⟨hs, hball⟩ := hwf.2.2 _ hmemwid
  cases hlk : lookupWorker w (chosenListeningId w qi idx) with
  | none => rw [hlk] at hs; cases hs
  | some wk =>
    obtain ⟨hid, hcount, hsubsc⟩ := hball wk (by rw [hlk]; exact List.mem_cons_self _ _)
    refine ⟨wk, removeFromSubscribed qi (chosenListeningId w qi idx)
      (eraseListening w qi (chosenListeningId w qi idx)) wk.subscribed_queues,
      rfl, hid, hid ▸ hmemwid, ?_, ?_, ?_, ?_, ?_, ?_, ?_, ?_⟩
    case refine_2 =>
      rw [removeFromSubscribed_workers]
      rfl
    case refine_3 =>
      rw [removeFromSubscribed_up_gauge]
      rfl
    case refine_4 =>
      rw [removeFromSubscribed_length, length_eraseListening]
    case refine_5 =>
      intro qk x hx
      exact mem_getQueue_eraseListening w qi qk _ x
        (mem_removeFromSubscribed _ _ _ _ qk x hx)
    case refine_6 =>
      rw [hid]
      intro qk hx
      have hxw1 := mem_removeFromSubscribed _ _ _ _ qk _ hx
      have hxw := mem_getQueue_eraseListening w qi qk _ _ hxw1
      by_cases hlenk : qk < w.queues.length
      · have hsub := hsubsc qk hlenk hxw
        by_cases hk : qk = qi
        · subst hk
          rw [getQueue_removeFromSubscribed_self, getQueue_eraseListening_self w qk _ hqi] at hx
          exact (hwf.2.1 qk hlenk).not_mem_erase hx
        · have hnd1 : (getQueue (eraseListening w qi (chosenListeningId w qi idx))
              qk).listening_workers.Nodup := by
            rw [getQueue_eraseListening_other w qi qk _ hk]
            exact hwf.2.1 qk hlenk
          exact not_mem_removeFromSubscribed_of_mem _ _ _ _ qk hsub hk hnd1 hx
      · rw [getQueue_of_length_le _ qk (by
          rw [removeFromSubscribed_length, length_eraseListening]; omega)] at hx
        cases hx
    case refine_7 =>
      rw [hid, getQueue_removeFromSubscribed_self,
        getQueue_eraseListening_self w qi _ hqi]
    case refine_8 =>
      intro qk hlenk
      apply nodup_removeFromSubscribed
      exact nodup_getQueue_eraseListening w qi qk _ (hwf.2.1 qk hlenk)
    case refine_1 =>
      have hany : ((removeFromSubscribed qi (chosenListeningId w qi idx)
          (eraseListening w qi (chosenListeningId w qi idx))
          wk.subscribed_queues).queues.any
            (fun q => q.listening_workers.contains (chosenListeningId w qi idx)))
          = false := by
        by_contra hcon
        rw [Bool.not_eq_false, List.any_eq_true] at hcon
        obtain ⟨q, hq, hcontains⟩ := hcon
        have hqmem : chosenListeningId w qi idx ∈ q.listening_workers :=
          List.elem_iff.mp hcontains
        obtain ⟨qk, hklen, hkq⟩ := mem_queues_getQueue _ q hq
        -- reuse the argument of refine_6 via its statement: wk.id is nowhere listed
        have hxw1 := mem_removeFromSubscribed qi (chosenListeningId w qi idx)
          wk.subscribed_queues _ qk _ (hkq ▸ hqmem)
        have hxw := mem_getQueue_eraseListening w qi qk _ _ hxw1
        rw [removeFromSubscribed_length, length_eraseListening] at hklen
        have hsub := hsubsc qk hklen hxw
        by_cases hk : qk = qi
        · subst hk
          have hx2 := hkq ▸ hqmem
          rw [getQueue_removeFromSubscribed_self,
            getQueue_eraseListening_self w qk _ hqi] at hx2
          exact (hwf.2.1 qk hklen).not_mem_erase hx2
        · have hnd1 : (getQueue (eraseListening w qi (chosenListeningId w qi idx))
              qk).listening_workers.Nodup := by
            rw [getQueue_eraseListening_other w qi qk _ hk]
            exact hwf.2.1 qk hklen
          exact not_mem_removeFromSubscribed_of_mem _ _ _ _ qk hsub hk hnd1
            (hkq ▸ hqmem)
      have hstep : pickWorkerStep w qi idx =
          if wk.status ≠ .Running then
            .ok (.shutDown (setUpGauge (removeFromSubscribed qi
              (chosenListeningId w qi idx)
              (eraseListening w qi (chosenListeningId w qi idx))
              wk.subscribed_queues) (chosenListeningId w qi idx) 0))
          else
            .ok (.picked wk (removeFromSubscribed qi (chosenListeningId w qi idx)
              (eraseListening w qi (chosenListeningId w qi idx))
              wk.subscribed_queues)) := by
        rw [pickWorkerStep, if_neg (by exact hne)]
        dsimp only
        rw [hlk]
        dsimp only
        rw [if_neg (by simp [hcount])]
        rw [if_neg (by rw [hany]; simp)]
      by_cases hst : wk.status = .Running
      · refine Or.inl ⟨hst, ?_⟩
        rw [hstep, if_neg (not_not_intro hst)]
      · refine Or.inr ⟨hst, ?_⟩
        rw [hstep, if_pos hst, hid]

theorem WorkerListedWF_transfer (w w' : QueueWorld) (qi wid : ℕ)
    (h : WorkerListedWF w qi wid)
    (hworkers : w'.workers = w.workers)
    (hlen : w'.queues.length = w.queues.length)
    (hmono : ∀ qj x, x ∈ (getQueue w' qj).listening_workers →
      x ∈ (getQueue w qj).listening_workers) :
    WorkerListedWF w' qi wid := by
  obtain ⟨hs, hball⟩ := h
  have hl : lookupWorker w' wid = lookupWorker w wid := by
    rw [lookupWorker, lookupWorker, hworkers]
  refine ⟨by rw [hl]; exact hs, ?_⟩
  intro wk hwk
  rw [hl] at hwk
  obtain ⟨h1, h2, h3⟩ := hball wk hwk
  exact ⟨h1, h2, fun qj hj hm => h3 qj (by omega) (hmono qj wid hm)⟩

theorem getQueue_setUpGauge (w : QueueWorld) (wid v qk : ℕ) :
    getQueue (setUpGauge w wid v) qk = getQueue w qk :=
  rfl

theorem getUpGauge_setUpGauge_self (w : QueueWorld) (wid v : ℕ) :
    getUpGauge (setUpGauge w wid v) wid = some v := by
  simp [getUpGauge, setUpGauge, List.lookup]

theorem getUpGauge_setUpGauge_other (w : QueueWorld) (wid v x : ℕ)
    (hx : x ≠ wid) : getUpGauge (setUpGauge w wid v) x = getUpGauge w x := by
  have hb : (x == wid) = false := beq_eq_false_iff_ne.mpr hx
  simp [getUpGauge, setUpGauge, List.lookup, hb]

theorem pickWorkerGo_spec (qi : ℕ) (choices : ℕ → ℕ) :
    ∀ (fuel k : ℕ) (w : QueueWorld), ListeningWF w qi →
      (getQueue w qi).listening_workers.length < fuel →
      ∃ res w', pickWorkerGo qi choices fuel k w = .ok (res, w') ∧
        w'.workers = w.workers ∧
        w'.queues.length = w.queues.length ∧
        (∀ qk x, x ∈ (getQueue w' qk).listening_workers →
          x ∈ (getQueue w qk).listening_workers) ∧
        (∀ x, x ∉ (getQueue w qi).listening_workers →
          getUpGauge w' x = getUpGauge w x) ∧
        (∀ wk, res = some wk → wk.status = .Running) ∧
        (res = none → (getQueue w' qi).listening_workers = []) ∧
        (∀ wk, res = some wk → ∀ qk, wk.id ∉ (getQueue w' qk).listening_workers) ∧
        (∀ wid ∈ (getQueue w qi).listening_workers,
          wid ∈ (getQueue w' qi).listening_workers ∨
          (∃ wk, res = some wk ∧ wk.id = wid) ∨
          (getUpGauge w' wid = some 0 ∧
            ∀ qk, wid ∉ (getQueue w' qk).listening_workers)) := by
  intro fuel
  induction fuel with
  | zero => intro k w _ hfuel; omega
  | succ n ih =>
    intro k w hwf hfuel
    by_cases hne : (getQueue w qi).listening_workers = []
    · refine ⟨none, w, ?_, rfl, rfl, fun _ _ h => h, fun _ _ => rfl,
        ?_, fun _ => hne, ?_, fun wid hwid => Or.inl hwid⟩
      · rw [pickWorkerGo, pickWorkerStep_noneLeft w qi (choices k) hne]
      · intro wk h
        exact absurd h (by simp)
      · intro wk h qk
        exact absurd h (by simp)
    · obtain ⟨wk, w2, hlk, hid, hmem, hcases, hworkers2, hgauge2, hlen2,
        hmono2, hkey2, herase2, hnodup2⟩ :=
        pickWorkerStep_spec w qi (choices k) hwf hne
      have hlpos : 0 < (getQueue w qi).listening_workers.length :=
        List.length_pos.mpr hne
      rcases hcases with ⟨hst, hstep⟩ | ⟨hst, hstep⟩
      · refine ⟨some wk, w2, ?_, hworkers2, hlen2, hmono2, ?_, ?_, ?_, ?_, ?_⟩
        · rw [pickWorkerGo, hstep]
        · intro x _
          rw [getUpGauge, getUpGauge, hgauge2]
        · intro wk' h
          cases h
          exact hst
        · intro h
          cases h
        · intro wk' h qk
          cases h
          exact hkey2 qk
        · intro wid hwid
          by_cases hw : wid = wk.id
          · exact Or.inr (Or.inl ⟨wk, rfl, hw.symm⟩)
          · refine Or.inl ?_
            rw [herase2]
            exact (List.mem_erase_of_ne hw).mpr hwid
      · have hget3 : ∀ qk, getQueue (setUpGauge w2 wk.id 0) qk = getQueue w2 qk :=
          fun _ => rfl
        have hwf3 : ListeningWF (setUpGauge w2 wk.id 0) qi := by
          refine ⟨?_, ?_, ?_⟩
          · show qi < w2.queues.length
            rw [hlen2]
            exact hwf.1
          · intro qj hj
            rw [hget3]
            exact hnodup2 qj (by rw [show (setUpGauge w2 wk.id 0).queues.length =
              w2.queues.length from rfl, hlen2] at hj; exact hj)
          · intro wid hwid
            have hwid2 : wid ∈ (getQueue w2 qi).listening_workers := hget3 qi ▸ hwid
            have hwidw : wid ∈ (getQueue w qi).listening_workers :=
              hmono2 qi wid hwid2
            refine WorkerListedWF_transfer w _ qi wid (hwf.2.2 wid hwidw) ?_ ?_ ?_
            · show w2.workers = w.workers
              exact hworkers2
            · show w2.queues.length = w.queues.length
              exact hlen2
            · intro qj x hx
              exact hmono2 qj x (hget3 qj ▸ hx)
        have hfuel3 :
            (getQueue (setUpGauge w2 wk.id 0) qi).listening_workers.length < n := by
          rw [hget3, herase2, List.length_erase_of_mem hmem]
          omega
        obtain ⟨res, w', hgo, hworkers', hlen', hmono', hgaugepres', hrun',
          hnone', hkey', hH'⟩ := ih (k + 1) (setUpGauge w2 wk.id 0) hwf3 hfuel3
        refine ⟨res, w', ?_, ?_, ?_, ?_, ?_, hrun', hnone', hkey', ?_⟩
        · rw [pickWorkerGo, hstep]
          exact hgo
        · rw [hworkers']
          exact hworkers2
        · rw [hlen']
          exact hlen2
        · intro qk x hx
          exact hmono2 qk x (hget3 qk ▸ hmono' qk x hx)
        · intro x hx
          have hx3 : x ∉ (getQueue (setUpGauge w2 wk.id 0) qi).listening_workers := by
            intro hc
            exact hx (hmono2 qi x (hget3 qi ▸ hc))
          rw [hgaugepres' x hx3]
          have hxne : x ≠ wk.id := fun h => hx (h ▸ hmem)
          rw [getUpGauge_setUpGauge_other w2 wk.id 0 x hxne]
          rw [getUpGauge, getUpGauge, hgauge2]
        · intro wid hwid
          by_cases hw : wid = wk.id
          · subst hw
            refine Or.inr (Or.inr ⟨?_, ?_⟩)
            · have hnotin3 : wk.id ∉
                  (getQueue (setUpGauge w2 wk.id 0) qi).listening_workers := by
                rw [hget3, herase2]
                exact (hwf.2.1 qi hwf.1).not_mem_erase
              rw [hgaugepres' wk.id hnotin3]
              exact getUpGauge_setUpGauge_self w2 wk.id 0
            · intro qk hc
              exact hkey2 qk (hget3 qk ▸ hmono' qk wk.id hc)
          · have hwid3 : wid ∈
                (getQueue (setUpGauge w2 wk.id 0) qi).listening_workers := by
              rw [hget3, herase2]
              exact (List.mem_erase_of_ne hw).mpr hwid
            exact hH' wid hwid3

/-! ## C7: pick_worker skips and shuts down non-running workers -/

/-- C7: under the ownership well-formedness of the source (each
listening worker id dereferences to a worker subscribed exactly once to
the picking queue and listening only on its subscribed queues),
`pick_worker` never panics: it returns some worker only if that
worker's status is Running; every chosen candidate that is not Running
is shut down — its `up` gauge is set to 0 and it listens nowhere — and
the loop retries among the remaining listening workers (the uniform
`gen_range` draw is modelled as an arbitrary in-range choice stream);
`none` is returned only when no listening workers remain. -/
theorem pick_worker_skips_non_running (w : QueueWorld) (qi : ℕ)
    (choices : ℕ → ℕ) (hwf : ListeningWF w qi) :
    ∃ res w', pickWorker w qi choices = .ok (res, w') ∧
      (∀ wk, res = some wk → wk.status = .Running) ∧
      (res = none → (getQueue w' qi).listening_workers = []) ∧
      (∀ wid ∈ (getQueue w qi).listening_workers,
        wid ∈ (getQueue w' qi).listening_workers ∨
        (∃ wk, res = some wk ∧ wk.id = wid) ∨
        (getUpGauge w' wid = some 0 ∧
          ∀ qk, wid ∉ (getQueue w' qk).listening_workers)) := by
  obtain ⟨res, w', h1, _, _, _, _, h6, h7, _, h9⟩ :=
    pickWorkerGo_spec qi choices ((getQueue w qi).listening_workers.length + 1)
      0 w hwf (Nat.lt_succ_self _)
  exact ⟨res, w', h1, h6, h7, h9⟩

/-- Witness for `pick_worker_skips_non_running` at `worldSkip` (worker
3 is ShuttingDown and gets skipped, worker 8 is picked). -/
theorem pick_worker_skips_non_running_witness :
    ∃ res w', pickWorker worldSkip 0 choiceZero = .ok (res, w') ∧
      (∀ wk, res = some wk → wk.status = .Running) ∧
      (res = none → (getQueue w' 0).listening_workers = []) ∧
      (∀ wid ∈ (getQueue worldSkip 0).listening_workers,
        wid ∈ (getQueue w' 0).listening_workers ∨
        (∃ wk, res = some wk ∧ wk.id = wid) ∨
        (getUpGauge w' wid = some 0 ∧
          ∀ qk, wid ∉ (getQueue w' qk).listening_workers)) :=
  pick_worker_skips_non_running worldSkip 0 choiceZero
    (by unfold ListeningWF WorkerListedWF; decide)

/-! ## C10: pick_worker removal and sole-ownership obligations -/

/-- C10: under the ownership well-formedness, every worker returned (or
shut down) by `pick_worker` has been removed from the listening set of
every queue of its `subscribed_queues` (indeed of every queue); and for
a chosen candidate, `pick_worker` panics when the picking queue does
not occur exactly once in the candidate's `subscribed_queues` (the
`found_self` assertions), and panics when after the removals some queue
outside the subscription list still lists the worker, so that a strong
reference remains and `Rc::into_inner` fails: the listening sets must
hold the only strong references to a listening worker. -/
theorem pick_worker_ownership_discipline (w : QueueWorld) (qi : ℕ)
    (choices : ℕ → ℕ) :
    (ListeningWF w qi →
      ∀ res w', pickWorker w qi choices = .ok (res, w') →
        (∀ wk, res = some wk →
          ∀ qj ∈ wk.subscribed_queues,
            wk.id ∉ (getQueue w' qj).listening_workers) ∧
        (∀ wid ∈ (getQueue w qi).listening_workers,
          wid ∉ (getQueue w' qi).listening_workers →
          ∀ qj, wid ∉ (getQueue w' qj).listening_workers))
    ∧ (∀ wk, (getQueue w qi).listening_workers ≠ [] →
        lookupWorker w (chosenListeningId w qi (choices 0)) = some wk →
        wk.subscribed_queues.count qi ≠ 1 →
        pickWorker w qi choices = .error .foundSelfAssert)
    ∧ (∀ wk qj, (getQueue w qi).listening_workers ≠ [] →
        lookupWorker w (chosenListeningId w qi (choices 0)) = some wk →
        wk.subscribed_queues.count qi = 1 →
        qj ≠ qi → qj ∉ wk.subscribed_queues →
        chosenListeningId w qi (choices 0) ∈ (getQueue w qj).listening_workers →
        pickWorker w qi choices = .error .intoInnerFailed) := by
  refine ⟨?_, ?_, ?_⟩
  · intro hwf res w' hok
    obtain ⟨res0, w0, h1, _, _, _, _, _, _, hkey, hH⟩ :=
      pickWorkerGo_spec qi choices ((getQueue w qi).listening_workers.length + 1)
        0 w hwf (Nat.lt_succ_self _)
    rw [pickWorker] at hok
    have heq := hok.symm.trans h1
    injection heq with heq2
    injection heq2 with h3 h4
    subst h3
    subst h4
    refine ⟨fun wk hres qj _ => hkey wk hres qj, ?_⟩
    intro wid hwid hnotin qj
    rcases hH wid hwid with hin | ⟨wk, hres, hid⟩ | ⟨_, hall⟩
    · exact absurd hin hnotin
    · exact hid ▸ hkey wk hres qj
    · exact hall qj
  · intro wk hne hlk hcount
    rw [pickWorker, pickWorkerGo]
    have hstep : pickWorkerStep w qi (choices 0) = .error .foundSelfAssert := by
      rw [pickWorkerStep, if_neg hne]
      dsimp only
      rw [hlk]
      dsimp only
      rw [if_pos hcount]
    rw [hstep]
  · intro wk qj hne hlk hcount hqj hnsub hmem
    have hqjlen : qj < w.queues.length := by
      by_contra hc
      push_neg at hc
      rw [getQueue_of_length_le w qj hc] at hmem
      cases hmem
    rw [pickWorker, pickWorkerGo]
    have hstep : pickWorkerStep w qi (choices 0) = .error .intoInnerFailed := by
      rw [pickWorkerStep, if_neg hne]
      dsimp only
      rw [hlk]
      dsimp only
      rw [if_neg (by simp [hcount])]
      have hany : ((removeFromSubscribed qi (chosenListeningId w qi (choices 0))
          (eraseListening w qi (chosenListeningId w qi (choices 0)))
          wk.subscribed_queues).queues.any
            (fun q => q.listening_workers.contains
              (chosenListeningId w qi (choices 0)))) = true := by
        rw [List.any_eq_true]
        have hq2 : getQueue (removeFromSubscribed qi
            (chosenListeningId w qi (choices 0))
            (eraseListening w qi (chosenListeningId w qi (choices 0)))
            wk.subscribed_queues) qj = getQueue w qj := by
          rw [getQueue_removeFromSubscribed_of_not_mem qi _ wk.subscribed_queues
            _ qj hnsub, getQueue_eraseListening_other w qi qj _ hqj]
        refine ⟨getQueue (removeFromSubscribed qi
            (chosenListeningId w qi (choices 0))
            (eraseListening w qi (chosenListeningId w qi (choices 0)))
            wk.subscribed_queues) qj, ?_, ?_⟩
        · apply getD_mem
          rw [removeFromSubscribed_length, length_eraseListening]
          exact hqjlen
        · rw [hq2]
          exact List.elem_iff.mpr hmem
      rw [if_pos hany]
    rw [hstep]

/-- Witness for `pick_worker_ownership_discipline` at `worldOne`: the
picked worker 7 is no longer listed on its subscribed queue 0. -/
theorem pick_worker_ownership_discipline_witness :
    (7 : ℕ) ∉ (getQueue ⟨[⟨"q", [], []⟩], [⟨7, [0], .Running⟩], 0, []⟩
      0).listening_workers :=
  ((pick_worker_ownership_discipline worldOne 0 choiceZero).1
    (by unfold ListeningWF WorkerListedWF; decide)
    (some ⟨7, [0], .Running⟩) ⟨[⟨"q", [], []⟩], [⟨7, [0], .Running⟩], 0, []⟩
    (by rfl)).1 ⟨7, [0], .Running⟩ rfl 0 (by decide)
